import Mathlib

set_option maxRecDepth 10000

/-!
Verification of the epub-to-markdown converter (epub_to_md.py).

This file gives a shallow embedding of the pure core of the converter:
the anchor segmenter (extract_section), the footnote reconciler
(append_footnotes), the markup normalizer (cleanup_pandoc_artifacts and
fix_media_links), filename sanitization (sanitize_name), the cached
renderer front end (get_markdown_content, modeled as an explicit state
machine over an external renderer oracle), and the outline-strategy
selection with the linear spine fallback from main.

Strings are modeled as Lean strings; Python string operations
(splitlines, substring test, regular expressions) are embedded as
executable functions on lists of characters, each documented with the
exact Python construct it embeds.
-/

namespace EpubToMd

/-- Python whitespace class: the characters matched by the regular
expression class backslash-s and stripped by str.strip (ASCII whitespace
plus the Unicode whitespace code points recognized by Python). -/
def isPySpace (c : Char) : Bool :=
  c = ' ' || c = '\t' || c = '\n' || c = '\r' || c = '\x0b' || c = '\x0c' ||
  c = '\x1c' || c = '\x1d' || c = '\x1e' || c = '\x1f' || c = '\x85' || c = '\xa0' ||
  c = '\u1680' || ('\u2000' ≤ c && c ≤ '\u200a') || c = '\u2028' || c = '\u2029' ||
  c = '\u202f' || c = '\u205f' || c = '\u3000'

/-- Line-boundary characters recognized by Python str.splitlines. -/
def isLineBreak (c : Char) : Bool :=
  c = '\n' || c = '\r' || c = '\x0b' || c = '\x0c' ||
  c = '\x1c' || c = '\x1d' || c = '\x1e' || c = '\x85' || c = '\u2028' || c = '\u2029'

/-- Worker for splitLinesPy: accumulates the current line (reversed) and
splits at each line boundary, treating a carriage return followed by a
newline as a single boundary, and dropping the final empty line produced
by a trailing boundary, exactly like Python str.splitlines. -/
def splitLinesChars (cur : List Char) : List Char → List (List Char)
  | [] => [cur.reverse]
  | '\r' :: '\n' :: rest =>
      cur.reverse :: (if rest.isEmpty then [] else splitLinesChars [] rest)
  | c :: cs =>
      if isLineBreak c then
        cur.reverse :: (if cs.isEmpty then [] else splitLinesChars [] cs)
      else splitLinesChars (c :: cur) cs

/-- Python str.splitlines: the empty string yields no lines, and a
trailing line boundary does not produce a trailing empty line. -/
def splitLinesPy (s : String) : List String :=
  if s.data.isEmpty then [] else (splitLinesChars [] s.data).map String.mk

/-- Read a line of a line list, with the empty string out of range. -/
def lineAt (lines : List String) (k : Nat) : String :=
  lines.getD k ""

/-- Join lines with a newline: Python "backslash-n".join(lines). -/
def joinLines (ls : List String) : String :=
  String.intercalate "\n" ls

/-- Does the pattern occur at the head of the list. -/
def listStarts : List Char → List Char → Bool
  | [], _ => true
  | _ :: _, [] => false
  | a :: as, b :: bs => a = b && listStarts as bs

/-- Python substring test (pat in line) on character lists. -/
def containsSub (pat : List Char) : List Char → Bool
  | [] => listStarts pat []
  | c :: cs => listStarts pat (c :: cs) || containsSub pat cs

/-- Heading level of a line per the regular expression caret (#+)
followed by one or more whitespace characters, as used by
extract_section: the number of leading hash marks when the character
right after the maximal run of hash marks is whitespace, otherwise 0. -/
def headingLevel (line : String) : Nat :=
  let run := line.data.takeWhile (fun c => c = '#')
  let rest := line.data.dropWhile (fun c => c = '#')
  if run.length ≠ 0 && (match rest with | c :: _ => isPySpace c | [] => false) then
    run.length
  else 0

/-- Index of the first element satisfying the predicate, counting from
the given start index; models the Python scanning loops with break. -/
def firstIdxFrom (p : String → Bool) : List String → Nat → Option Nat
  | [], _ => none
  | l :: ls, i => if p l then some i else firstIdxFrom p ls (i + 1)

/-- A one-character string holding a single quote. -/
def sq : String := "\x27"

/-- The four anchor-encoding forms recognized by extract_section for a
given anchor id, in the order the code tries them. -/
def anchorPatterns (anchor : String) : List String :=
  ["\x7b#" ++ anchor ++ "\x7d",
   "id=\"" ++ anchor ++ "\"",
   "id=" ++ sq ++ anchor ++ sq,
   "name=\"" ++ anchor ++ "\""]

/-- Does the line contain one of the anchor-encoding forms; models the
inner pattern loop of extract_section. -/
def anchorLineB (anchor : String) (line : String) : Bool :=
  (anchorPatterns anchor).any (fun p => containsSub p.data line.data)

/-- Owning heading level of the matched line, per extract_section: the
line's own level if it is a heading; otherwise the level of the first
heading among the 20 lines starting at the matched line; otherwise the
default level 2. -/
def owningLevel (lines : List String) (j : Nat) : Nat :=
  if headingLevel (lineAt lines j) ≠ 0 then headingLevel (lineAt lines j)
  else
    match firstIdxFrom (fun l => decide (headingLevel l ≠ 0)) ((lines.drop j).take 20) 0 with
    | some k => headingLevel (lineAt ((lines.drop j).take 20) k)
    | none => 2

/-- Is the line a segment boundary for the given owning level: a heading
line whose level is at most the owning level. -/
def boundaryPred (hl : Nat) (l : String) : Bool :=
  decide (headingLevel l ≠ 0 ∧ headingLevel l ≤ hl)

/-- Exclusive end index of the segment, per extract_section: the first
line after the matched line that is a boundary, or the number of lines
when there is none. -/
def endIdx (lines : List String) (j hl : Nat) : Nat :=
  match firstIdxFrom (boundaryPred hl) (lines.drop (j + 1)) (j + 1) with
  | some e => e
  | none => lines.length

/-- Embedding of extract_section: returns the whole content for an empty
anchor or when no line contains an anchor-encoding form; otherwise the
joined slice of lines from the first matching line up to the exclusive
end boundary. -/
def extractSection (content anchor : String) : String :=
  if anchor = "" then content
  else
    match firstIdxFrom (anchorLineB anchor) (splitLinesPy content) 0 with
    | none => content
    | some j =>
        joinLines (((splitLinesPy content).drop j).take
          (endIdx (splitLinesPy content) j (owningLevel (splitLinesPy content) j) - j))

/-- The condition under which extract_section prints its warning: a
nonempty anchor whose encoding forms occur on no line of the content. -/
def extractSectionWarns (content anchor : String) : Bool :=
  anchor ≠ "" && (firstIdxFrom (anchorLineB anchor) (splitLinesPy content) 0).isNone

/-- Specification of the owning heading level, stated from the claim: it
is the matched line's own heading level when that line is a heading;
otherwise the level of the next heading found within the fixed forward
window of 20 lines, with no heading in between; otherwise the default
level 2 when the window holds no heading. -/
def OwnLevelSpec (lines : List String) (j L : Nat) : Prop :=
  (headingLevel (lineAt lines j) ≠ 0 ∧ L = headingLevel (lineAt lines j))
  ∨ (headingLevel (lineAt lines j) = 0 ∧
     ((∃ k, j < k ∧ k < j + 20 ∧ k < lines.length ∧
         headingLevel (lineAt lines k) ≠ 0 ∧ L = headingLevel (lineAt lines k) ∧
         ∀ m, j < m → m < k → headingLevel (lineAt lines m) = 0)
      ∨ ((∀ k, j < k → k < j + 20 → k < lines.length →
            headingLevel (lineAt lines k) = 0) ∧ L = 2)))

/-- Specification of the exclusive end boundary, stated from the claim:
the first line after the matched line that is a heading of level at most
the owning level, or the end of the document when there is none. -/
def BoundarySpec (lines : List String) (j L e : Nat) : Prop :=
  j < e ∧ e ≤ lines.length ∧
  (∀ k, j < k → k < e →
    ¬(headingLevel (lineAt lines k) ≠ 0 ∧ headingLevel (lineAt lines k) ≤ L)) ∧
  (e = lines.length ∨
    (e < lines.length ∧ headingLevel (lineAt lines e) ≠ 0 ∧
     headingLevel (lineAt lines e) ≤ L))

/-- The concrete anchor-segmentation example from the specification. -/
def c1doc : String := "# A\ntext1\n## B \x7b#b\x7d\ntext2\n# C\ntext3"

/-- A document holding a fenced code block, between the anchor heading
and the next real heading, whose fence encloses a heading-marker line. -/
def c5doc : String := "## B \x7b#b\x7d\ntext\n```\n# inside\n```\nmore\n# C"

/-- Characters of the identifier class used by all footnote regular
expressions: ASCII letters, digits, underscore, dot and hyphen. -/
def isIdChar (c : Char) : Bool :=
  ('a' ≤ c && c ≤ 'z') || ('A' ≤ c && c ≤ 'Z') || ('0' ≤ c && c ≤ '9') ||
  c = '_' || c = '.' || c = '-'

/-- Worker for scanAll, with structural recursion on a fuel counter so
the definition reduces inside the kernel. At each position the matcher
is tried; on a match its captured text is collected and scanning resumes
after the match, otherwise scanning advances one character. Every
matcher used here consumes at least one character, which the length
guard enforces, so starting the fuel at the input length never runs out. -/
def scanAllFuel (f : List Char → Option (String × List Char)) :
    Nat → List Char → List String
  | 0, _ => []
  | _ + 1, [] => []
  | n + 1, c :: cs =>
      match f (c :: cs) with
      | some (r, rest) =>
          if rest.length ≤ cs.length then r :: scanAllFuel f n rest
          else r :: scanAllFuel f n cs
      | none => scanAllFuel f n cs

/-- Generic left-to-right non-overlapping scanner modeling re.findall. -/
def scanAll (f : List Char → Option (String × List Char)) (s : List Char) :
    List String :=
  scanAllFuel f s.length s

/-- Matcher for the inline-link pattern close-bracket, open-parenthesis,
hash, one or more identifier characters, close-parenthesis, capturing
the identifier. The greedy identifier run must be directly followed by
the closing parenthesis, which is exactly what the regular expression
accepts since identifier characters never include a parenthesis. -/
def tryLinkId : List Char → Option (String × List Char)
  | ']' :: '(' :: '#' :: rest =>
      match rest.dropWhile isIdChar with
      | ')' :: r2 =>
          if (rest.takeWhile isIdChar).isEmpty then none
          else some (String.mk (rest.takeWhile isIdChar), r2)
      | _ => none
  | _ => none

/-- Matcher for the HTML link pattern href equals quote hash identifier
quote, capturing the identifier. -/
def tryHrefId (s : List Char) : Option (String × List Char) :=
  if listStarts ("href=\"#").data s then
    match (s.drop 7).dropWhile isIdChar with
    | '"' :: r2 =>
        if ((s.drop 7).takeWhile isIdChar).isEmpty then none
        else some (String.mk ((s.drop 7).takeWhile isIdChar), r2)
    | _ => none
  else none

/-- Matcher for the HTML id attribute pattern id equals quote identifier
quote, capturing the identifier. -/
def tryIdAttr (s : List Char) : Option (String × List Char) :=
  if listStarts ("id=\"").data s then
    match (s.drop 4).dropWhile isIdChar with
    | '"' :: r2 =>
        if ((s.drop 4).takeWhile isIdChar).isEmpty then none
        else some (String.mk ((s.drop 4).takeWhile isIdChar), r2)
    | _ => none
  else none

/-- Matcher for the heading-attribute pattern open-brace hash identifier,
capturing the identifier; the pattern has no closing requirement. -/
def tryBraceId (s : List Char) : Option (String × List Char) :=
  if listStarts ("\x7b#").data s then
    if ((s.drop 2).takeWhile isIdChar).isEmpty then none
    else some (String.mk ((s.drop 2).takeWhile isIdChar), (s.drop 2).dropWhile isIdChar)
  else none

/-- get_ids_in_line: the identifiers defined on a line, via the id
attribute form and the heading-attribute form. The result is used only
for membership, mirroring the Python set. -/
def getIdsInLine (line : String) : List String :=
  scanAll tryIdAttr line.data ++ scanAll tryBraceId line.data

/-- The cheap pre-filter applied before extracting ids from a line: the
line must contain the id attribute opener or the brace-hash opener. -/
def defGuard (line : String) : Bool :=
  containsSub ("id=\"").data line.data || containsSub ("\x7b#").data line.data

/-- The last element of the list satisfying the predicate; models the
Python dictionary in which later assignments overwrite earlier ones. -/
def lastWhere (p : String → Bool) : List String → Option String
  | [] => none
  | l :: ls =>
      match lastWhere p ls with
      | some r => some r
      | none => if p l then some l else none

/-- The defining line that append_footnotes associates to an id: the
last line of the full content passing the pre-filter and defining the
id. The code stores lines only for referenced ids; the stored value per
id is this one. -/
def definitionFor (full id : String) : Option String :=
  lastWhere (fun l => defGuard l && (getIdsInLine l).contains id) (splitLinesPy full)

/-- The ids already defined inside the excerpt; used for membership,
mirroring the Python set. -/
def existingIds (ex : String) : List String :=
  (splitLinesPy ex).foldr
    (fun l acc => if defGuard l then getIdsInLine l ++ acc else acc) []

/-- First-occurrence deduplication, modeling the element set of the
Python set object. -/
def dedupKeepFirst (l : List String) : List String :=
  l.foldl (fun acc s => if acc.contains s then acc else acc ++ [s]) []

/-- The reference ids used in the excerpt, collected from inline
fragment links and href fragment links. The list models the Python set
referenced_ids; its order is one particular enumeration, and theorems
about iteration take an arbitrary enumeration as a parameter. -/
def referencedIds (ex : String) : List String :=
  dedupKeepFirst (scanAll tryLinkId ex.data ++ scanAll tryHrefId ex.data)

/-- One step of the to_append loop of append_footnotes: skip ids defined
inside the excerpt, look the id up among the definitions, and append the
defining line unless it was already collected. -/
def toAppendStep (ex full : String) (acc : List String) (r : String) : List String :=
  if (existingIds ex).contains r then acc
  else
    match definitionFor full r with
    | some d => if acc.contains d then acc else acc ++ [d]
    | none => acc

/-- The list of defining lines appended by append_footnotes when the
referenced-id set is iterated in the order ord. -/
def toAppend (ex full : String) (ord : List String) : List String :=
  ord.foldl (toAppendStep ex full) []

/-- Embedding of append_footnotes, parameterized by ord, the iteration
order of the referenced-id set: the Python set type fixes no order, so
theorems quantify over every enumeration of that set. -/
def appendFootnotesOrd (ord : List String) (sectionContent fullContent : String) :
    String :=
  if (referencedIds sectionContent).isEmpty then sectionContent
  else if (toAppend sectionContent fullContent ord).isEmpty then sectionContent
  else sectionContent ++ "\n\n---\n\n" ++
    joinLines (toAppend sectionContent fullContent ord)

/-- The characters removed by sanitize_name: backslash, slash, star,
question mark, colon, double quote, less than, greater than, bar. -/
def isStrippedChar (c : Char) : Bool :=
  c = '\\' || c = '/' || c = '*' || c = '?' || c = ':' || c = '"' ||
  c = '<' || c = '>' || c = '|'

/-- Python str.strip with no argument: remove leading and trailing
whitespace characters. -/
def pyStrip (cs : List Char) : List Char :=
  ((cs.dropWhile isPySpace).reverse.dropWhile isPySpace).reverse

/-- Embedding of sanitize_name: a missing name gives the placeholder,
otherwise the invalid characters are removed, surrounding whitespace is
trimmed, an empty result gives the placeholder, and the result is capped
at its first 100 characters. -/
def sanitizeName : Option String → String
  | none => "Untitled"
  | some n =>
      if pyStrip (n.data.filter (fun c => !isStrippedChar c)) = [] then "Untitled"
      else String.mk ((pyStrip (n.data.filter (fun c => !isStrippedChar c))).take 100)

/-- The external world seen by get_markdown_content: whether a source
file exists on disk, and what a pandoc invocation on it produces, with
none standing for a non-zero exit status or a raised exception. -/
structure RenderEnv where
  fileOk : String → Bool
  render : String → Option String

/-- The mutable conversion state: the MARKDOWN_CACHE dictionary, as an
association list whose most recent insertion is looked up first, and the
log of pandoc subprocess invocations in order. -/
structure ConvState where
  cache : List (String × String)
  calls : List String

/-- Lookup in the cache association list. Each key is inserted at most
once, so first-match lookup agrees with the Python dictionary. -/
def lookupCache : List (String × String) → String → Option String
  | [], _ => none
  | (k, v) :: rest, s => if k = s then some v else lookupCache rest s

/-- Embedding of get_markdown_content as a state transition: a cache hit
returns the cached text without touching the state; a missing source
file returns empty text without invoking the renderer; otherwise the
renderer is invoked (logged in calls) and, only on success, the result
is cached and returned, a failure returning empty text uncached. -/
def getMarkdownContent (env : RenderEnv) (st : ConvState) (srcFile : String) :
    String × ConvState :=
  match lookupCache st.cache srcFile with
  | some c => (c, st)
  | none =>
      if env.fileOk srcFile then
        match env.render srcFile with
        | some c => (c, ⟨(srcFile, c) :: st.cache, st.calls ++ [srcFile]⟩)
        | none => ("", ⟨st.cache, st.calls ++ [srcFile]⟩)
      else ("", st)

/-- A run of the converter front end over a sequence of source-file
requests, as issued by the outline walk: returns the texts handed to
each node and the final state. -/
def runRequests (env : RenderEnv) : ConvState → List String → List String × ConvState
  | st, [] => ([], st)
  | st, s :: rest =>
      ((getMarkdownContent env st s).1 ::
        (runRequests env (getMarkdownContent env st s).2 rest).1,
       (runRequests env (getMarkdownContent env st s).2 rest).2)

/-- An environment in which every source file exists but the renderer
always fails with a non-zero exit status. -/
def failEnv : RenderEnv :=
  ⟨fun _ => true, fun _ => none⟩

/-- An environment in which every source file exists and the renderer
succeeds deterministically. -/
def okEnv : RenderEnv :=
  ⟨fun _ => true, fun f => some ("rendered:" ++ f)⟩

/-- One outline node: the label, the optional content reference, and the
ordered children, as built by all three outline strategies. -/
structure TocItem where
  title : String
  src : Option String
  children : List TocItem

/-- The three outline-parsing strategies of main. -/
inductive Strategy where
  | ncxS
  | navS
  | spineS
deriving DecidableEq

/-- ASCII lowering of one character, modeling str.lower on the ASCII
file names involved. -/
def lowerAscii (c : Char) : Char :=
  if ('A' ≤ c && c ≤ 'Z') then Char.ofNat (c.toNat + 32) else c

/-- ASCII lowering of a string. -/
def strLowerAscii (s : String) : String :=
  String.mk (s.data.map lowerAscii)

/-- Does the list end with the suffix. -/
def listEnds (suf s : List Char) : Bool :=
  listStarts suf.reverse s.reverse

/-- The dispatch test of main: toc_file.lower().endswith of the ncx
extension. -/
def isNcxFile (tocFile : String) : Bool :=
  listEnds (".ncx").data (strLowerAscii tocFile).data

/-- Lookup of a manifest id in the id-to-href dictionary built by the
spine fallback; later manifest entries overwrite earlier ones, so the
last matching entry wins. -/
def lookupLastHref : List (String × String) → String → Option String
  | [], _ => none
  | (k, v) :: rest, i =>
      match lookupLastHref rest i with
      | some r => some r
      | none => if k = i then some v else none

/-- The linear spine fallback of main: one flat childless node per
reading-order entry whose idref resolves in the manifest, titled by the
running count of nodes built so far plus one. -/
def spineFallbackItems (idToHref : List (String × String)) (idrefs : List String) :
    List TocItem :=
  idrefs.foldl
    (fun acc idref =>
      match lookupLastHref idToHref idref with
      | some href => acc ++ [⟨"Section " ++ toString (acc.length + 1), some href, []⟩]
      | none => acc)
    []

/-- The outline-strategy dispatch of main: the toc file's extension
selects either the navigation-tree parser or the HTML navigation-list
parser, never both; when the selected strategy yields no nodes the spine
fallback is used. The second component records which strategies were
attempted, in order. -/
def selectOutline (tocFile : String) (ncxRes navRes fallback : List TocItem) :
    List TocItem × List Strategy :=
  if isNcxFile tocFile then
    if ncxRes.isEmpty then (fallback, [Strategy.ncxS, Strategy.spineS])
    else (ncxRes, [Strategy.ncxS])
  else
    if navRes.isEmpty then (fallback, [Strategy.navS, Strategy.spineS])
    else (navRes, [Strategy.navS])

/-- Worker for replaceAllLit, with structural recursion on a fuel
counter so the definition reduces inside the kernel. It models Python
str.replace and the literal regular-expression substitutions: scan left
to right, replace each non-overlapping occurrence of the pattern. All
patterns used are nonempty, so each replacement consumes at least one
character and fuel equal to the input length never runs out. -/
def replaceAllLitFuel (pat rep : List Char) : Nat → List Char → List Char
  | 0, s => s
  | _ + 1, [] => []
  | n + 1, c :: cs =>
      if listStarts pat (c :: cs) && !pat.isEmpty then
        rep ++ replaceAllLitFuel pat rep n (cs.drop (pat.length - 1))
      else c :: replaceAllLitFuel pat rep n cs

/-- Replace every non-overlapping occurrence of a literal pattern,
scanning left to right. -/
def replaceAllLit (pat rep s : List Char) : List Char :=
  replaceAllLitFuel pat rep s.length s

/-- Embedding of fix_media_links: a root-level file keeps its content;
otherwise the three literal media-reference openers are rewritten with
the relative prefix, backslashes in the prefix becoming slashes. -/
def fixMediaLinks (content relPath : String) : String :=
  if relPath = "" || relPath = "." then content
  else
    String.mk (replaceAllLit ("src=" ++ sq ++ "media/").data
      (("src=" ++ sq).data ++ (relPath.data.map (fun c => if c = '\\' then '/' else c)) ++ ("/media/").data)
      (replaceAllLit ("src=\"media/").data
        (("src=\"").data ++ (relPath.data.map (fun c => if c = '\\' then '/' else c)) ++ ("/media/").data)
        (replaceAllLit ("](media/").data
          (("](").data ++ (relPath.data.map (fun c => if c = '\\' then '/' else c)) ++ ("/media/").data)
          content.data)))

/-- All the ways of splitting a list at one occurrence of a delimiter,
in left-to-right order of the occurrence. The lazy quantifiers of the
normalizer's regular expressions try exactly these splits in this
order, backtracking to the next on failure of the rest of the pattern. -/
def occSplits (delim : List Char) : List Char → List (List Char × List Char)
  | [] => if listStarts delim [] then [([], [])] else []
  | c :: cs =>
      (if listStarts delim (c :: cs) then [([], (c :: cs).drop delim.length)] else []) ++
      (occSplits delim cs).map (fun p => (c :: p.1, p.2))

/-- Number of characters consumed by the lazy tail dot-star, closing
brace, caret: up to and including the first closing brace immediately
followed by a caret. -/
def idxBraceCaret : List Char → Option Nat
  | '\x7d' :: '^' :: _ => some 2
  | _ :: cs => (idxBraceCaret cs).map (· + 1)
  | [] => none

/-- Number of characters consumed by the lazy tail dot-star, closing
brace: up to and including the first closing brace. -/
def idxBrace : List Char → Option Nat
  | '\x7d' :: _ => some 1
  | _ :: cs => (idxBrace cs).map (· + 1)
  | [] => none

/-- The unescaping applied to the captured link text by the first two
normalizer rules: escaped brackets become plain brackets. -/
def cleanBrackets (text : List Char) : List Char :=
  replaceAllLit ("\\]").data ("]").data
    (replaceAllLit ("\\[").data ("[").data text)

/-- Matcher for normalizer rule 1, the inline footnote caret form: at a
caret and open bracket, the lazy group runs to each close bracket, open
parenthesis in turn, the second lazy group to each close parenthesis,
open brace, hash in turn, then a nonempty greedy identifier run, a lazy
run to the first closing brace followed by a caret; the replacement is
the superscript anchor carrying the id. The identifier characters never
include a brace, so backtracking the greedy run adds no matches. -/
def tryPat1 : List Char → Option (List Char × List Char)
  | a :: b :: rest =>
      if a = '^' && b = '[' then
        (occSplits ("](").data rest).findSome? (fun g1r =>
          (occSplits (")\x7b#").data g1r.2).findSome? (fun g2r =>
            if (g2r.2.takeWhile isIdChar).isEmpty then none
            else
              match idxBraceCaret (g2r.2.dropWhile isIdChar) with
              | some n =>
                  some (("<sup id=\"").data ++ g2r.2.takeWhile isIdChar ++
                      ("\"><a href=\"").data ++ g2r.1 ++ ("\">").data ++
                      cleanBrackets g1r.1 ++ ("</a></sup>").data,
                    (g2r.2.dropWhile isIdChar).drop n)
              | none => none))
      else none
  | _ => none

/-- Matcher for normalizer rule 2, a link with an attached id attribute:
like rule 1 without the surrounding carets; the replacement is an anchor
element carrying the href and the id. -/
def tryPat2 : List Char → Option (List Char × List Char)
  | a :: rest =>
      if a = '[' then
        (occSplits ("](").data rest).findSome? (fun g1r =>
          (occSplits (")\x7b#").data g1r.2).findSome? (fun g2r =>
            if (g2r.2.takeWhile isIdChar).isEmpty then none
            else
              match idxBrace (g2r.2.dropWhile isIdChar) with
              | some n =>
                  some (("<a href=\"").data ++ g2r.1 ++ ("\" id=\"").data ++
                      g2r.2.takeWhile isIdChar ++ ("\">").data ++
                      cleanBrackets g1r.1 ++ ("</a>").data,
                    (g2r.2.dropWhile isIdChar).drop n)
              | none => none))
      else none
  | [] => none

/-- Matcher for normalizer rule 3, an image with a trailing attribute
block: the attribute block after the close parenthesis is dropped and
the image reference kept verbatim. -/
def tryPat3 : List Char → Option (List Char × List Char)
  | a :: b :: rest =>
      if a = '!' && b = '[' then
        (occSplits ("](").data rest).findSome? (fun g1r =>
          (occSplits (")\x7b").data g1r.2).findSome? (fun g2r =>
            match idxBrace g2r.2 with
            | some n =>
                some (("![").data ++ g1r.1 ++ ("](").data ++ g2r.1 ++ (")").data,
                  g2r.2.drop n)
            | none => none))
      else none
  | _ => none

/-- Matcher for normalizer rule 4, a bracketed span with a trailing
attribute block, guarded by the negative lookbehind for an exclamation
mark: the span collapses to its raw inner text. -/
def tryPat4 (prev : Option Char) : List Char → Option (List Char × List Char)
  | a :: rest =>
      if a = '[' then
        if prev = some '!' then none
        else
          (occSplits ("]\x7b").data rest).findSome? (fun g1r =>
            match idxBrace g1r.2 with
            | some n => some (g1r.1, g1r.2.drop n)
            | none => none)
      else none
  | [] => none

/-- Worker for subAll, with structural recursion on a fuel counter so
the definition reduces inside the kernel: the matcher runs at each
position; on a match the replacement is emitted and scanning resumes
after the match, exactly the semantics of re.sub. Every matcher
consumes at least one character, which the length guard enforces, so
fuel equal to the input length never runs out. -/
def subAllFuel (f : List Char → Option (List Char × List Char)) :
    Nat → List Char → List Char
  | 0, s => s
  | _ + 1, [] => []
  | n + 1, c :: cs =>
      match f (c :: cs) with
      | some (r, rest) =>
          if rest.length ≤ cs.length then r ++ subAllFuel f n rest
          else c :: subAllFuel f n cs
      | none => c :: subAllFuel f n cs

/-- Apply one normalizer matcher across a line, re.sub style. -/
def subAll (f : List Char → Option (List Char × List Char)) (s : List Char) :
    List Char :=
  subAllFuel f s.length s

/-- Worker for the lookbehind-guarded rule 4, additionally carrying the
previous character of the original text. Every rule-4 match ends at the
closing brace of the attribute block, so after a match the previous
original character is that closing brace. -/
def subAllPrevFuel (f : Option Char → List Char → Option (List Char × List Char)) :
    Option Char → Nat → List Char → List Char
  | _, 0, s => s
  | _, _ + 1, [] => []
  | prev, n + 1, c :: cs =>
      match f prev (c :: cs) with
      | some (r, rest) =>
          if rest.length ≤ cs.length then r ++ subAllPrevFuel f (some '\x7d') n rest
          else c :: subAllPrevFuel f (some c) n cs
      | none => c :: subAllPrevFuel f (some c) n cs

/-- Apply the lookbehind-guarded rule 4 across a line. -/
def subAllPrev (f : Option Char → List Char → Option (List Char × List Char))
    (s : List Char) : List Char :=
  subAllPrevFuel f none s.length s

/-- Normalizer rule 5: a line starting with three colons, the container
fence marker, is replaced by the empty line; the multiline regular
expression matches the line text but not its newline. -/
def fenceLine (l : List Char) : List Char :=
  if listStarts (":::").data l then [] else l

/-- The trailing part of normalizer rule 6 after the heading group: one
or more whitespace characters, an attribute block opened by brace hash
and closed at the first closing brace, then only whitespace to the end
of the line. -/
def matchTailAttr (s : List Char) : Bool :=
  !(s.takeWhile isPySpace).isEmpty &&
  (match s.dropWhile isPySpace with
   | a :: b :: r2 =>
       a = '\x7b' && b = '#' &&
       !(r2.takeWhile (fun c => c != '\x7d')).isEmpty &&
       (match r2.dropWhile (fun c => c != '\x7d') with
        | d :: r4 => d = '\x7d' && r4.all isPySpace
        | [] => false)
   | _ => false)

/-- The split position of normalizer rule 6 on a line: the greedy
heading group takes the longest prefix starting with a hash mark whose
remainder matches the trailing attribute block; candidates are tried
from the longest down. -/
def attrSplit (l : List Char) : Nat → Option Nat
  | 0 => none
  | k + 1 =>
      if (match l.take (k + 1) with | c :: _ => c = '#' | [] => false) &&
          matchTailAttr (l.drop (k + 1)) then some (k + 1)
      else attrSplit l k

/-- Normalizer rule 6: strip a trailing brace-hash attribute block from
a heading line, keeping the heading text. -/
def lineStep6 (l : List Char) : List Char :=
  match attrSplit l l.length with
  | some k => l.take k
  | none => l

/-- Split a character list at every newline, keeping empty segments;
joined back with joinNlChars this is the identity, so the per-line
application of the normalizer rules below is exactly their text-wide
application, since no rule can match across a newline and no
replacement contains one. -/
def splitNl : List Char → List (List Char)
  | [] => [[]]
  | c :: cs =>
      if c = '\n' then [] :: splitNl cs
      else
        match splitNl cs with
        | [] => [[c]]
        | l :: ls => (c :: l) :: ls

/-- Join character lines with newlines. -/
def joinNlChars : List (List Char) → List Char
  | [] => []
  | [l] => l
  | l :: ls => l ++ '\n' :: joinNlChars ls

/-- Normalizer rule 7: unescape the bracket and quote escapes left by
the renderer, in the order of the code. -/
def unescapeStep (s : List Char) : List Char :=
  replaceAllLit ("\\\"").data ("\"").data
    (replaceAllLit ("\\]").data ("]").data
      (replaceAllLit ("\\[").data ("[").data s))

/-- Embedding of cleanup_pandoc_artifacts: rules 1 to 4 rewrite inline
forms, rule 5 empties container-fence lines, rule 6 strips heading
attribute blocks, rule 7 unescapes residual escapes. The code applies each
rule to the whole text in this order; since no pattern element of rules
1 to 6 can match a newline and no replacement introduces one, applying
the six rules line by line in the same order is the same function, and
rule 7 is character-local. -/
def cleanupPandocArtifacts (content : String) : String :=
  String.mk (unescapeStep (joinNlChars ((splitNl content.data).map
    (fun l => lineStep6 (fenceLine
      (subAllPrev tryPat4 (subAll tryPat3 (subAll tryPat2 (subAll tryPat1 l)))))))))

/-- The per-node content pipeline of convert_toc_item for a node whose
source carries an optional anchor fragment: render output is segmented
at the anchor, footnotes are reconciled against the full text, media
links are fixed for the node's directory, and the normalizer runs last.
The footnote set iteration order ord is a parameter, as in
appendFootnotesOrd. -/
def nodePipeline (ord : List String) (content : String) (anchor : Option String)
    (relPath : String) : String :=
  cleanupPandocArtifacts
    (fixMediaLinks
      (appendFootnotesOrd ord
        (match anchor with
         | some a => extractSection content a
         | none => content) content)
      relPath)

/-- A rendered document whose anchored section references two footnotes
defined on two separate lines after the section. -/
def c6doc : String :=
  "## S \x7b#s\x7d\nsee [x](#n1) and [y](#n2)\n# Defs\n<span id=\"n1\">one</span>\n<span id=\"n2\">two</span>"

end EpubToMd

namespace EpubToMd

theorem listStarts_nil (pat : List Char) (h : pat ≠ []) : listStarts pat [] = false := by
  cases pat with
  | nil => exact absurd rfl h
  | cons a as => rfl

/-- firstIdxFrom returns an index at least the start index. -/
theorem firstIdxFrom_ge (p : String → Bool) (ls : List String) (i j : Nat)
    (h : firstIdxFrom p ls i = some j) : i ≤ j := by
  induction ls generalizing i with
  | nil => simp [firstIdxFrom] at h
  | cons l ls ih =>
    simp only [firstIdxFrom] at h
    by_cases hp : p l
    · simp [hp] at h; omega
    · simp [hp] at h
      have := ih (i + 1) h
      omega

/-- When firstIdxFrom succeeds, the found line satisfies the predicate
and all earlier lines from the start index fail it. -/
theorem firstIdxFrom_spec (p : String → Bool) (ls : List String) (i j : Nat)
    (h : firstIdxFrom p ls i = some j) :
    j - i < ls.length ∧ p (lineAt ls (j - i)) = true ∧
      ∀ k, k < j - i → p (lineAt ls k) = false := by
  induction ls generalizing i with
  | nil => simp [firstIdxFrom] at h
  | cons l ls ih =>
    simp only [firstIdxFrom] at h
    by_cases hp : p l
    · simp [hp] at h
      subst h
      refine ⟨by simp, ?_, ?_⟩
      · simpa [lineAt] using hp
      · intro k hk; omega
    · simp [hp] at h
      have hge := firstIdxFrom_ge p ls (i + 1) j h
      have := ih (i + 1) h
      obtain ⟨h1, h2, h3⟩ := this
      refine ⟨by simp; omega, ?_, ?_⟩
      · have : j - i = (j - (i + 1)) + 1 := by omega
        rw [this]
        simpa [lineAt] using h2
      · intro k hk
        cases k with
        | zero => simpa [lineAt] using hp
        | succ k =>
          have : k < j - (i + 1) := by omega
          simpa [lineAt] using h3 k this

/-- When firstIdxFrom fails, every line fails the predicate. -/
theorem firstIdxFrom_none (p : String → Bool) (ls : List String) (i : Nat)
    (h : firstIdxFrom p ls i = none) :
    ∀ k, k < ls.length → p (lineAt ls k) = false := by
  induction ls generalizing i with
  | nil => intro k hk; simp at hk
  | cons l ls ih =>
    simp only [firstIdxFrom] at h
    by_cases hp : p l
    · simp [hp] at h
    · simp [hp] at h
      intro k hk
      cases k with
      | zero => simpa [lineAt] using hp
      | succ k =>
        have hk' : k < ls.length := by simpa using hk
        simpa [lineAt] using ih (i + 1) h k hk'

/-- Converse: a declaratively first matching index is found by
firstIdxFrom. -/
theorem firstIdxFrom_eq_some (p : String → Bool) (ls : List String) (i j : Nat)
    (hj : j < ls.length) (hp : p (lineAt ls j) = true)
    (hfirst : ∀ k, k < j → p (lineAt ls k) = false) :
    firstIdxFrom p ls i = some (i + j) := by
  induction ls generalizing i j with
  | nil => simp at hj
  | cons l ls ih =>
    simp only [firstIdxFrom]
    cases j with
    | zero =>
      have : p l = true := by simpa [lineAt] using hp
      simp [this]
    | succ j =>
      have h0 : p l = false := by
        have := hfirst 0 (Nat.succ_pos j)
        simpa [lineAt] using this
      simp [h0]
      have hj' : j < ls.length := by simpa using hj
      have hp' : p (lineAt ls j) = true := by simpa [lineAt] using hp
      have hfirst' : ∀ k, k < j → p (lineAt ls k) = false := by
        intro k hk
        have := hfirst (k + 1) (by omega)
        simpa [lineAt] using this
      have := ih (i + 1) j hj' hp' hfirst'
      rw [this]
      congr 1
      omega

end EpubToMd

namespace EpubToMd

/-- A matching index that is first among the whole list is found by
firstIdxFrom started at 0. -/
theorem firstIdxFrom_zero_eq_some (p : String → Bool) (ls : List String) (j : Nat)
    (hj : j < ls.length) (hp : p (lineAt ls j) = true)
    (hfirst : ∀ k, k < j → p (lineAt ls k) = false) :
    firstIdxFrom p ls 0 = some j := by
  simpa using firstIdxFrom_eq_some p ls 0 j hj hp hfirst

/-- When every line fails the predicate, firstIdxFrom fails. -/
theorem firstIdxFrom_eq_none (p : String → Bool) (ls : List String) (i : Nat)
    (h : ∀ l ∈ ls, p l = false) : firstIdxFrom p ls i = none := by
  induction ls generalizing i with
  | nil => rfl
  | cons l ls ih =>
    have h0 : p l = false := h l (by simp)
    simp only [firstIdxFrom, h0]
    simp only [Bool.false_eq_true, if_false]
    exact ih (i + 1) (fun x hx => h x (List.mem_cons_of_mem l hx))

/-- firstIdxFrom over a list that is a block of failing lines followed by
a satisfying line finds exactly the end of the block. -/
theorem firstIdxFrom_append (p : String → Bool) (xs : List String) (y : String)
    (ys : List String) (i : Nat) (hxs : ∀ x ∈ xs, p x = false) (hy : p y = true) :
    firstIdxFrom p (xs ++ y :: ys) i = some (i + xs.length) := by
  induction xs generalizing i with
  | nil => simp [firstIdxFrom, hy]
  | cons x xs ih =>
    have hx : p x = false := hxs x (by simp)
    simp only [List.cons_append, firstIdxFrom, hx]
    simp only [Bool.false_eq_true, if_false, List.append_eq]
    rw [ih (i + 1) (fun a ha => hxs a (List.mem_cons_of_mem x ha))]
    congr 1
    simp
    omega

/-- Reading a dropped list is reading the original at a shifted index. -/
theorem lineAt_drop (lines : List String) (n m : Nat) :
    lineAt (lines.drop n) m = lineAt lines (n + m) := by
  simp [lineAt, List.getD, List.getElem?_drop]

/-- Reading inside a window of a dropped list is reading the original at
a shifted index. -/
theorem lineAt_drop_take (lines : List String) (j n k : Nat) (hk : k < n) :
    lineAt ((lines.drop j).take n) k = lineAt lines (j + k) := by
  simp [lineAt, List.getD, List.getElem?_take, hk, List.getElem?_drop]

/-- The owning level computed by extract_section satisfies its claimed
specification. -/
theorem owningLevel_spec (lines : List String) (j : Nat) (hj : j < lines.length) :
    OwnLevelSpec lines j (owningLevel lines j) := by
  by_cases hself : headingLevel (lineAt lines j) ≠ 0
  · exact Or.inl ⟨hself, by simp [owningLevel, hself]⟩
  · push_neg at hself
    refine Or.inr ⟨hself, ?_⟩
    have hwlen : ((lines.drop j).take 20).length = min 20 (lines.length - j) := by
      simp [List.length_take, List.length_drop]
    cases hfind : firstIdxFrom (fun l => decide (headingLevel l ≠ 0))
        ((lines.drop j).take 20) 0 with
    | some k =>
      obtain ⟨hk, hpk, hprev⟩ :=
        firstIdxFrom_spec (fun l => decide (headingLevel l ≠ 0))
          ((lines.drop j).take 20) 0 k hfind
      simp only [Nat.sub_zero] at hk hpk hprev
      have hk20 : k < 20 := by omega
      have hklen : j + k < lines.length := by omega
      have hwk : lineAt ((lines.drop j).take 20) k = lineAt lines (j + k) :=
        lineAt_drop_take lines j 20 k hk20
      have hlev : headingLevel (lineAt lines (j + k)) ≠ 0 := by
        rw [← hwk]
        simpa using hpk
      have hkpos : 0 < k := by
        rcases Nat.eq_zero_or_pos k with h0 | h0
        · subst h0
          rw [Nat.add_zero] at hlev
          exact absurd hself hlev
        · exact h0
      refine Or.inl ⟨j + k, by omega, by omega, hklen, hlev, ?_, ?_⟩
      · unfold owningLevel
        rw [if_neg (by simp [hself]), hfind]
        exact congrArg headingLevel hwk
      · intro m hm1 hm2
        have hmk : m - j < k := by omega
        have := hprev (m - j) hmk
        have hwm : lineAt ((lines.drop j).take 20) (m - j) = lineAt lines m := by
          rw [lineAt_drop_take lines j 20 (m - j) (by omega)]
          congr 1
          omega
        rw [hwm] at this
        simpa using this
    | none =>
      refine Or.inr ⟨?_, ?_⟩
      swap
      · unfold owningLevel
        rw [if_neg (by simp [hself]), hfind]
      intro k hk1 hk2 hk3

      have hidx : k - j < ((lines.drop j).take 20).length := by omega
      have := firstIdxFrom_none (fun l => decide (headingLevel l ≠ 0))
        ((lines.drop j).take 20) 0 hfind (k - j) hidx
      have hwk : lineAt ((lines.drop j).take 20) (k - j) = lineAt lines k := by
        rw [lineAt_drop_take lines j 20 (k - j) (by omega)]
        congr 1
        omega
      rw [hwk] at this
      simpa using this

/-- The end boundary computed by extract_section satisfies its claimed
specification. -/
theorem endIdx_spec (lines : List String) (j L : Nat) (hj : j < lines.length) :
    BoundarySpec lines j L (endIdx lines j L) := by
  cases hfind : firstIdxFrom (boundaryPred L) (lines.drop (j + 1)) (j + 1) with
  | some e =>
    have hge := firstIdxFrom_ge (boundaryPred L) (lines.drop (j + 1)) (j + 1) e hfind
    obtain ⟨hlt, hpe, hprev⟩ :=
      firstIdxFrom_spec (boundaryPred L) (lines.drop (j + 1)) (j + 1) e hfind
    have hdlen : (lines.drop (j + 1)).length = lines.length - (j + 1) := by
      simp [List.length_drop]
    have helen : e < lines.length := by omega
    have hee : lineAt (lines.drop (j + 1)) (e - (j + 1)) = lineAt lines e := by
      rw [lineAt_drop]
      congr 1
      omega
    rw [hee] at hpe
    have hpe' : headingLevel (lineAt lines e) ≠ 0 ∧ headingLevel (lineAt lines e) ≤ L := by
      have := of_decide_eq_true hpe
      exact this
    have hend : endIdx lines j L = e := by simp [endIdx, hfind]
    rw [hend]
    refine ⟨by omega, by omega, ?_, Or.inr ⟨helen, hpe'.1, hpe'.2⟩⟩
    intro k hk1 hk2
    have hkk : k - (j + 1) < e - (j + 1) := by omega
    have := hprev (k - (j + 1)) hkk
    have hkl : lineAt (lines.drop (j + 1)) (k - (j + 1)) = lineAt lines k := by
      rw [lineAt_drop]
      congr 1
      omega
    rw [hkl] at this
    intro hcon
    have : boundaryPred L (lineAt lines k) = true := decide_eq_true hcon
    simp_all
  | none =>
    have hend : endIdx lines j L = lines.length := by simp [endIdx, hfind]
    rw [hend]
    have hdlen : (lines.drop (j + 1)).length = lines.length - (j + 1) := by
      simp [List.length_drop]
    refine ⟨hj, Nat.le_refl _, ?_, Or.inl rfl⟩
    intro k hk1 hk2
    have hidx : k - (j + 1) < (lines.drop (j + 1)).length := by omega
    have := firstIdxFrom_none (boundaryPred L) (lines.drop (j + 1)) (j + 1) hfind
      (k - (j + 1)) hidx
    have hkl : lineAt (lines.drop (j + 1)) (k - (j + 1)) = lineAt lines k := by
      rw [lineAt_drop]
      congr 1
      omega
    rw [hkl] at this
    intro hcon
    have : boundaryPred L (lineAt lines k) = true := decide_eq_true hcon
    simp_all

/-- C1. For every markdown text and anchor id occurring in some line,
extract_section returns the contiguous inclusive slice of lines from the
first line matching an anchor-encoding form up to, exclusively, the
first subsequent heading line of level at most the owning level, the end
of the document when none exists; the owning level is the matched line's
own heading level when it is a heading, otherwise the level of the next
heading within the fixed 20-line window, defaulting to 2. The witness
instantiates the particular example from the specification. -/
theorem extractSection_first_match_slice (content anchor : String) (j : Nat)
    (ha : anchor ≠ "")
    (hj : j < (splitLinesPy content).length)
    (hmatch : anchorLineB anchor (lineAt (splitLinesPy content) j) = true)
    (hfirst : ∀ k, k < j → anchorLineB anchor (lineAt (splitLinesPy content) k) = false) :
    ∃ L e, OwnLevelSpec (splitLinesPy content) j L ∧
      BoundarySpec (splitLinesPy content) j L e ∧
      extractSection content anchor =
        joinLines (((splitLinesPy content).drop j).take (e - j)) := by
  have hfind : firstIdxFrom (anchorLineB anchor) (splitLinesPy content) 0 = some j :=
    firstIdxFrom_zero_eq_some (anchorLineB anchor) (splitLinesPy content) j hj hmatch hfirst
  refine ⟨owningLevel (splitLinesPy content) j,
    endIdx (splitLinesPy content) j (owningLevel (splitLinesPy content) j),
    owningLevel_spec (splitLinesPy content) j hj,
    endIdx_spec (splitLinesPy content) j (owningLevel (splitLinesPy content) j) hj, ?_⟩
  simp [extractSection, ha, hfind]

end EpubToMd

namespace EpubToMd

/-- Witness for C1 at the specification's concrete example: the anchor b
is first matched on line 2, and the returned slice is the heading line
together with the following text line, cut at the level-1 heading. -/
theorem extractSection_first_match_slice_witness :
    (∃ L e, OwnLevelSpec (splitLinesPy c1doc) 2 L ∧
      BoundarySpec (splitLinesPy c1doc) 2 L e ∧
      extractSection c1doc "b" =
        joinLines (((splitLinesPy c1doc).drop 2).take (e - 2))) ∧
    extractSection c1doc "b" = "## B \x7b#b\x7d\ntext2" :=
  ⟨extractSection_first_match_slice c1doc "b" 2 (by decide) (by decide)
    (by decide) (by decide), by decide⟩

/-- C5 (amended). extract_section does not track fenced code blocks: its
boundary scan treats every heading-marker line as a boundary, so a
heading line of level at most the owning level terminates the segment
even when lines between the anchor line and that heading open a code
fence. The list mid is arbitrary and may contain fence lines; only its
heading levels matter. -/
theorem extractSection_fence_not_tracked (content a head hline : String)
    (mid rest : List String)
    (ha : a ≠ "")
    (hsplit : splitLinesPy content = head :: mid ++ hline :: rest)
    (hmatch : anchorLineB a head = true)
    (hhead : headingLevel head ≠ 0)
    (hmid : ∀ l ∈ mid, headingLevel l = 0)
    (hb1 : headingLevel hline ≠ 0) (hb2 : headingLevel hline ≤ headingLevel head) :
    extractSection content a = joinLines (head :: mid) := by
  have hlines : splitLinesPy content = head :: (mid ++ hline :: rest) := by
    simpa using hsplit
  have hfind : firstIdxFrom (anchorLineB a) (splitLinesPy content) 0 = some 0 := by
    rw [hlines]
    simp [firstIdxFrom, hmatch]
  have hat0 : lineAt (splitLinesPy content) 0 = head := by
    rw [hlines]; rfl
  have hol : owningLevel (splitLinesPy content) 0 = headingLevel head := by
    unfold owningLevel
    rw [hat0, if_pos hhead]
  have hdrop : (splitLinesPy content).drop 1 = mid ++ hline :: rest := by
    rw [hlines]; rfl
  have hend : endIdx (splitLinesPy content) 0 (headingLevel head) = 1 + mid.length := by
    unfold endIdx
    rw [hdrop, firstIdxFrom_append (boundaryPred (headingLevel head)) mid hline rest 1
      (fun x hx => by simp [boundaryPred, hmid x hx])
      (decide_eq_true ⟨hb1, hb2⟩)]
  simp only [extractSection, if_neg ha, hfind]
  rw [hol, hend, hlines]
  have h1 : 1 + mid.length - 0 = mid.length + 1 := by omega
  rw [List.drop_zero, h1, List.take_succ_cons, List.take_left]

/-- Counterexample to C5 as stated: in c5doc the heading-marker line
inside the fenced code block does terminate the segment, so the segment
stops at the fence-opening line instead of running on to the heading
after the fence. -/
theorem extractSection_fence_counterexample :
    extractSection c5doc "b" = "## B \x7b#b\x7d\ntext\n```" ∧
    extractSection c5doc "b" ≠ "## B \x7b#b\x7d\ntext\n```\n# inside\n```\nmore" := by
  exact ⟨by decide, by decide⟩

/-- Witness for the amended C5: applying the fence theorem to c5doc, the
segment for anchor b ends right at the fence-opening line because the
heading-marker line inside the fence is taken as a boundary. -/
theorem extractSection_fence_not_tracked_witness :
    extractSection c5doc "b" = "## B \x7b#b\x7d\ntext\n```" :=
  (extractSection_fence_not_tracked c5doc "b" "## B \x7b#b\x7d" "# inside"
    ["text", "```"] ["```", "more", "# C"] (by decide) (by decide) (by decide)
    (by decide) (by decide) (by decide) (by decide)).trans (by decide)

/-- C7. When no line of the content contains any recognized
anchor-encoding form for a nonempty anchor id, extract_section returns
the input unchanged and its warning condition holds. -/
theorem extractSection_no_match_returns_input (content anchor : String)
    (ha : anchor ≠ "")
    (h : ∀ l ∈ splitLinesPy content, anchorLineB anchor l = false) :
    extractSection content anchor = content ∧
      extractSectionWarns content anchor = true := by
  have hfind : firstIdxFrom (anchorLineB anchor) (splitLinesPy content) 0 = none :=
    firstIdxFrom_eq_none _ _ 0 h
  constructor
  · simp [extractSection, ha, hfind]
  · simp [extractSectionWarns, ha, hfind]

/-- Witness for C7: a content with no anchor occurrence is returned
unchanged, with the warning condition true. -/
theorem extractSection_no_match_witness :
    extractSection "hello\nworld" "missing" = "hello\nworld" ∧
      extractSectionWarns "hello\nworld" "missing" = true :=
  extractSection_no_match_returns_input "hello\nworld" "missing" (by decide) (by decide)

end EpubToMd

namespace EpubToMd

/-- The to_append step when the id is defined inside the excerpt: the
accumulator is unchanged. -/
theorem toAppendStep_existing (ex full : String) (acc : List String) (r : String)
    (hc : (existingIds ex).contains r = true) :
    toAppendStep ex full acc r = acc := by
  unfold toAppendStep
  rw [if_pos hc]

/-- The to_append step when the id has no definition in the full
content: the accumulator is unchanged. -/
theorem toAppendStep_none (ex full : String) (acc : List String) (r : String)
    (hc : (existingIds ex).contains r = false)
    (hd : definitionFor full r = none) :
    toAppendStep ex full acc r = acc := by
  unfold toAppendStep
  rw [if_neg (by simpa using hc), hd]

/-- The to_append step when the id is unresolved and defined: the
defining line is appended unless already collected. -/
theorem toAppendStep_some (ex full : String) (acc : List String) (r d : String)
    (hc : (existingIds ex).contains r = false)
    (hd : definitionFor full r = some d) :
    toAppendStep ex full acc r = if acc.contains d then acc else acc ++ [d] := by
  unfold toAppendStep
  rw [if_neg (by simpa using hc), hd]

/-- Every element of the accumulator survives one to_append step. -/
theorem toAppendStep_subset (ex full : String) (acc : List String) (r l : String)
    (h : l ∈ acc) : l ∈ toAppendStep ex full acc r := by
  by_cases hc : (existingIds ex).contains r
  · rw [toAppendStep_existing ex full acc r hc]
    exact h
  · cases hd : definitionFor full r with
    | none =>
      rw [toAppendStep_none ex full acc r (by simpa using hc) hd]
      exact h
    | some d =>
      rw [toAppendStep_some ex full acc r d (by simpa using hc) hd]
      split
      · exact h
      · exact List.mem_append_left _ h

/-- Every element of the accumulator survives the whole to_append loop. -/
theorem toAppend_mem_mono (ex full : String) (ord acc : List String) (l : String)
    (h : l ∈ acc) : l ∈ ord.foldl (toAppendStep ex full) acc := by
  induction ord generalizing acc with
  | nil => exact h
  | cons a ord ih =>
    exact ih (toAppendStep ex full acc a) (toAppendStep_subset ex full acc a l h)

/-- One to_append step preserves the no-duplicates invariant, because a
line is appended only when it was not collected yet. -/
theorem toAppendStep_nodup (ex full : String) (acc : List String) (r : String)
    (h : acc.Nodup) : (toAppendStep ex full acc r).Nodup := by
  by_cases hc : (existingIds ex).contains r
  · rw [toAppendStep_existing ex full acc r hc]
    exact h
  · cases hd : definitionFor full r with
    | none =>
      rw [toAppendStep_none ex full acc r (by simpa using hc) hd]
      exact h
    | some d =>
      rw [toAppendStep_some ex full acc r d (by simpa using hc) hd]
      by_cases hdc : acc.contains d
      · rw [if_pos hdc]
        exact h
      · rw [if_neg hdc]
        have hd2 : d ∉ acc := by simpa using hdc
        simp [List.nodup_append, h, hd2]

/-- The collected to_append list never holds a line twice. -/
theorem toAppend_nodup (ex full : String) (ord : List String) :
    (toAppend ex full ord).Nodup := by
  suffices h : ∀ acc : List String, acc.Nodup →
      (ord.foldl (toAppendStep ex full) acc).Nodup by
    exact h [] List.nodup_nil
  induction ord with
  | nil => intro acc hacc; exact hacc
  | cons a ord ih =>
    intro acc hacc
    exact ih (toAppendStep ex full acc a) (toAppendStep_nodup ex full acc a hacc)

/-- Any unresolved referenced id whose definition exists contributes its
defining line to the to_append loop result. -/
theorem toAppend_mem_of (ex full : String) (ord acc : List String) (id L : String)
    (hid : id ∈ ord) (hex : id ∉ existingIds ex)
    (hdef : definitionFor full id = some L) :
    L ∈ ord.foldl (toAppendStep ex full) acc := by
  induction ord generalizing acc with
  | nil => simp at hid
  | cons a ord ih =>
    rcases List.mem_cons.mp hid with rfl | hid2
    · rw [List.foldl_cons]
      apply toAppend_mem_mono
      rw [toAppendStep_some ex full acc id L (by simpa using hex) hdef]
      by_cases hL : acc.contains L
      · rw [if_pos hL]
        simpa using hL
      · rw [if_neg hL]
        exact List.mem_append_right acc (by simp)
    · exact ih (toAppendStep ex full acc a) hid2

/-- Every line collected by the to_append loop is the definition of some
iterated id that is not defined inside the excerpt. -/
theorem toAppend_mem_sound (ex full : String) (ord acc : List String) (l : String)
    (h : l ∈ ord.foldl (toAppendStep ex full) acc) :
    l ∈ acc ∨ ∃ id, id ∈ ord ∧ id ∉ existingIds ex ∧
      definitionFor full id = some l := by
  induction ord generalizing acc with
  | nil => exact Or.inl h
  | cons a ord ih =>
    rw [List.foldl_cons] at h
    rcases ih (toAppendStep ex full acc a) h with hstep | ⟨id, hid, hex, hdef⟩
    · by_cases hc : (existingIds ex).contains a
      · rw [toAppendStep_existing ex full acc a hc] at hstep
        exact Or.inl hstep
      · cases hd : definitionFor full a with
        | none =>
          rw [toAppendStep_none ex full acc a (by simpa using hc) hd] at hstep
          exact Or.inl hstep
        | some d =>
          rw [toAppendStep_some ex full acc a d (by simpa using hc) hd] at hstep
          by_cases hdc : acc.contains d
          · rw [if_pos hdc] at hstep
            exact Or.inl hstep
          · rw [if_neg hdc] at hstep
            rcases List.mem_append.mp hstep with hl | hl
            · exact Or.inl hl
            · have : l = d := by simpa using hl
              subst this
              exact Or.inr ⟨a, List.mem_cons_self a ord, by simpa using hc, hd⟩
    · exact Or.inr ⟨id, List.mem_cons_of_mem a hid, hex, hdef⟩

/-- When every iterated id is either defined inside the excerpt or has
no definition in the full content, the to_append loop collects nothing. -/
theorem toAppend_eq_acc (ex full : String) (ord acc : List String)
    (h : ∀ id ∈ ord, id ∈ existingIds ex ∨ definitionFor full id = none) :
    ord.foldl (toAppendStep ex full) acc = acc := by
  induction ord generalizing acc with
  | nil => rfl
  | cons a ord ih =>
    have hstep : toAppendStep ex full acc a = acc := by
      rcases h a (List.mem_cons_self a ord) with hmem | hnone
      · exact toAppendStep_existing ex full acc a (by simpa using hmem)
      · by_cases hc : (existingIds ex).contains a
        · exact toAppendStep_existing ex full acc a hc
        · exact toAppendStep_none ex full acc a (by simpa using hc) hnone
    rw [List.foldl_cons, hstep]
    exact ih acc (fun id hid => h id (List.mem_cons_of_mem a hid))

/-- When lastWhere finds nothing, no line satisfies the predicate. -/
theorem lastWhere_none (p : String → Bool) (ls : List String)
    (h : lastWhere p ls = none) : ∀ k, k < ls.length → p (lineAt ls k) = false := by
  induction ls with
  | nil => intro k hk; simp at hk
  | cons l ls ih =>
    cases htail : lastWhere p ls with
    | some r => rw [lastWhere, htail] at h; simp at h
    | none =>
      rw [lastWhere, htail] at h
      have hl : p l = false := by
        by_cases hp : p l
        · rw [if_pos hp] at h; simp at h
        · simpa using hp
      intro k hk
      cases k with
      | zero => simpa [lineAt] using hl
      | succ k => simpa [lineAt] using ih htail k (by simpa using hk)

/-- When lastWhere returns a line, that line occurs in the list at a
position after which no line satisfies the predicate, and satisfies the
predicate itself: the last such line wins. -/
theorem lastWhere_spec (p : String → Bool) (ls : List String) (r : String)
    (h : lastWhere p ls = some r) :
    ∃ n, n < ls.length ∧ lineAt ls n = r ∧ p r = true ∧
      ∀ m, n < m → m < ls.length → p (lineAt ls m) = false := by
  induction ls with
  | nil => simp [lastWhere] at h
  | cons l ls ih =>
    cases htail : lastWhere p ls with
    | some r' =>
      rw [lastWhere, htail] at h
      have : r' = r := by simpa using h
      subst this
      obtain ⟨n, hn, heq, hpr, hafter⟩ := ih htail
      refine ⟨n + 1, by simpa using hn, by simpa [lineAt] using heq, hpr, ?_⟩
      intro m hm1 hm2
      cases m with
      | zero => omega
      | succ m =>
        have := hafter m (by omega) (by simpa using hm2)
        simpa [lineAt] using this
    | none =>
      rw [lastWhere, htail] at h
      have hp : p l = true := by
        by_cases hp : p l
        · simpa using hp
        · rw [if_neg hp] at h; simp at h
      rw [if_pos hp] at h
      have : l = r := by simpa using h
      subst this
      refine ⟨0, by simp, by simp [lineAt], hp, ?_⟩
      intro m hm1 hm2
      cases m with
      | zero => omega
      | succ m =>
        have := lastWhere_none p ls htail m (by simpa using hm2)
        simpa [lineAt] using this

end EpubToMd

namespace EpubToMd

/-- C4. Footnote reconciliation, for every enumeration ord of the
referenced-id set: an id referenced in the excerpt, not defined inside
it, and defined in the full document gets its defining line appended
exactly once after the divider; every appended line belongs to such an
unresolved id, so ids already defined inside the excerpt are never
re-appended; an excerpt with nothing to resolve is returned unchanged;
and the defining line of an id is the last line of the full document
defining it, even when several lines define it. -/
theorem appendFootnotes_reconciliation (ex full : String) (ord : List String)
    (hord : ord.Perm (referencedIds ex)) :
    (∀ id L, id ∈ referencedIds ex → id ∉ existingIds ex →
        definitionFor full id = some L →
        L ∈ toAppend ex full ord ∧ (toAppend ex full ord).count L = 1 ∧
        appendFootnotesOrd ord ex full =
          ex ++ "\n\n---\n\n" ++ joinLines (toAppend ex full ord)) ∧
    (∀ L ∈ toAppend ex full ord,
        ∃ id, id ∈ referencedIds ex ∧ id ∉ existingIds ex ∧
          definitionFor full id = some L) ∧
    ((∀ id ∈ referencedIds ex, id ∈ existingIds ex ∨ definitionFor full id = none) →
        appendFootnotesOrd ord ex full = ex) ∧
    (∀ id L, definitionFor full id = some L →
        ∃ n, n < (splitLinesPy full).length ∧ lineAt (splitLinesPy full) n = L ∧
          (defGuard L && (getIdsInLine L).contains id) = true ∧
          ∀ m, n < m → m < (splitLinesPy full).length →
            (defGuard (lineAt (splitLinesPy full) m) &&
              (getIdsInLine (lineAt (splitLinesPy full) m)).contains id) = false) := by
  refine ⟨?_, ?_, ?_, ?_⟩
  · intro id L hid hex hdef
    have hidord : id ∈ ord := hord.mem_iff.mpr hid
    have hmem : L ∈ toAppend ex full ord :=
      toAppend_mem_of ex full ord [] id L hidord hex hdef
    refine ⟨hmem, List.count_eq_one_of_mem (toAppend_nodup ex full ord) hmem, ?_⟩
    have h1 : (referencedIds ex).isEmpty = false := by
      cases hre : referencedIds ex with
      | nil => rw [hre] at hid; simp at hid
      | cons a l => simp
    have h2 : (toAppend ex full ord).isEmpty = false := by
      cases hta : toAppend ex full ord with
      | nil => rw [hta] at hmem; simp at hmem
      | cons a l => simp
    unfold appendFootnotesOrd
    rw [if_neg (by simp [h1]), if_neg (by simp [h2])]
  · intro L hL
    have hL' : L ∈ ord.foldl (toAppendStep ex full) [] := hL
    rcases toAppend_mem_sound ex full ord [] L hL' with h0 | ⟨id, hid, hex, hdef⟩
    · simp at h0
    · exact ⟨id, hord.mem_iff.mp hid, hex, hdef⟩
  · intro h
    have hta : toAppend ex full ord = [] :=
      toAppend_eq_acc ex full ord [] (fun id hid => h id (hord.mem_iff.mp hid))
    unfold appendFootnotesOrd
    by_cases h1 : (referencedIds ex).isEmpty = true
    · rw [if_pos h1]
    · rw [if_neg h1, if_pos (by simp [hta])]
  · intro id L hdef
    exact lastWhere_spec _ _ L hdef

/-- Witness for C4 at the example from the specification: the excerpt
references note1, whose defining line occurs twice in the full text; the
result is the excerpt, a divider, and that line appended exactly once. -/
theorem appendFootnotes_reconciliation_witness :
    appendFootnotesOrd ["note1"] "see [x](#note1)"
        "see [x](#note1)\nmid\n<span id=\"note1\">ref</span>\nmore\n<span id=\"note1\">ref</span>" =
      "see [x](#note1)\n\n---\n\n<span id=\"note1\">ref</span>" ∧
    (toAppend "see [x](#note1)"
        "see [x](#note1)\nmid\n<span id=\"note1\">ref</span>\nmore\n<span id=\"note1\">ref</span>"
        ["note1"]).count "<span id=\"note1\">ref</span>" = 1 := by
  have h := (appendFootnotes_reconciliation "see [x](#note1)"
      "see [x](#note1)\nmid\n<span id=\"note1\">ref</span>\nmore\n<span id=\"note1\">ref</span>"
      ["note1"] (by decide)).1
      "note1" "<span id=\"note1\">ref</span>" (by decide) (by decide) (by decide)
  exact ⟨h.2.2.trans (by decide), h.2.1⟩

/-- C10. The reconciler never edits the excerpt body: its result is the
excerpt extended by some suffix, and that suffix is either empty or the
divider followed by the appended defining lines. -/
theorem appendFootnotes_prefix_preserved (ord : List String) (ex full : String) :
    (∃ t, appendFootnotesOrd ord ex full = ex ++ t) ∧
    (appendFootnotesOrd ord ex full = ex ∨
      appendFootnotesOrd ord ex full =
        ex ++ "\n\n---\n\n" ++ joinLines (toAppend ex full ord)) := by
  have hd : appendFootnotesOrd ord ex full = ex ∨
      appendFootnotesOrd ord ex full =
        ex ++ "\n\n---\n\n" ++ joinLines (toAppend ex full ord) := by
    unfold appendFootnotesOrd
    by_cases h1 : (referencedIds ex).isEmpty = true
    · rw [if_pos h1]
      exact Or.inl rfl
    · rw [if_neg h1]
      by_cases h2 : (toAppend ex full ord).isEmpty = true
      · rw [if_pos h2]
        exact Or.inl rfl
      · rw [if_neg h2]
        exact Or.inr rfl
  refine ⟨?_, hd⟩
  rcases hd with h | h
  · exact ⟨"", by simp [h]⟩
  · exact ⟨"\n\n---\n\n" ++ joinLines (toAppend ex full ord),
      by rw [h, String.append_assoc]⟩

end EpubToMd

namespace EpubToMd

/-- A list none of whose elements satisfies the predicate is unchanged
by dropWhile. -/
theorem dropWhile_eq_self_of (p : Char → Bool) (l : List Char)
    (h : ∀ c ∈ l, p c = false) : l.dropWhile p = l := by
  cases l with
  | nil => rfl
  | cons c cs =>
    have := h c (by simp)
    simp [List.dropWhile, this]

/-- Stripping removes nothing from a list free of whitespace. -/
theorem pyStrip_eq_self_of (l : List Char) (h : ∀ c ∈ l, isPySpace c = false) :
    pyStrip l = l := by
  unfold pyStrip
  rw [dropWhile_eq_self_of isPySpace l h,
    dropWhile_eq_self_of isPySpace l.reverse (fun c hc => h c (by simpa using hc)),
    List.reverse_reverse]

/-- Membership in the strip result implies membership in the input. -/
theorem mem_of_mem_pyStrip (c : Char) (l : List Char) (h : c ∈ pyStrip l) :
    c ∈ l := by
  unfold pyStrip at h
  rw [List.mem_reverse] at h
  have h2 := (List.dropWhile_sublist isPySpace).mem h
  rw [List.mem_reverse] at h2
  exact (List.dropWhile_sublist isPySpace).mem h2

/-- C8 (amended). sanitize_name maps a missing title to the
placeholder, strips the invalid characters as in the specification
example, always caps the result at 100 characters, never leaves an
invalid character in a non-placeholder result, and truncates a
200-character title to exactly 100 characters provided the title
consists of characters that are neither stripped nor whitespace; titles
of 200 such-free characters that sanitize to empty fall back to the
placeholder instead, which is what the counterexample exhibits. -/
theorem sanitizeName_props :
    sanitizeName none = "Untitled" ∧
    sanitizeName (some "A/B*C?") = "ABC" ∧
    (∀ t : String, (sanitizeName (some t)).length ≤ 100) ∧
    (∀ t : String, sanitizeName (some t) = "Untitled" ∨
      ∀ c ∈ (sanitizeName (some t)).data, isStrippedChar c = false) ∧
    (∀ t : String, (∀ c ∈ t.data, isStrippedChar c = false ∧ isPySpace c = false) →
      t.data.length = 200 → (sanitizeName (some t)).length = 100) := by
  refine ⟨rfl, by decide, ?_, ?_, ?_⟩
  · intro t
    simp only [sanitizeName]
    split
    · decide
    · simp [String.length, List.length_take]
  · intro t
    simp only [sanitizeName]
    split
    · exact Or.inl rfl
    · refine Or.inr ?_
      intro c hc
      have h1 : c ∈ pyStrip (t.data.filter (fun c => !isStrippedChar c)) :=
        List.take_subset 100 _ hc
      have h2 : c ∈ t.data.filter (fun c => !isStrippedChar c) :=
        mem_of_mem_pyStrip c _ h1
      have := List.of_mem_filter h2
      simpa using this
  · intro t h hlen
    have hfilter : t.data.filter (fun c => !isStrippedChar c) = t.data := by
      rw [List.filter_eq_self]
      intro c hc
      simp [(h c hc).1]
    have hstrip : pyStrip (t.data.filter (fun c => !isStrippedChar c)) = t.data := by
      rw [hfilter]
      exact pyStrip_eq_self_of t.data (fun c hc => (h c hc).2)
    simp only [sanitizeName]
    rw [hstrip]
    rw [if_neg (by intro hnil; rw [hnil] at hlen; simp at hlen)]
    simp [String.length, List.length_take, hlen]

/-- Witness for the amended C8: a 200-character title of plain letters
is truncated to exactly 100 characters. -/
theorem sanitizeName_props_witness :
    (∀ c ∈ (String.mk (List.replicate 200 'a')).data,
        isStrippedChar c = false ∧ isPySpace c = false) ∧
    (sanitizeName (some (String.mk (List.replicate 200 'a')))).length = 100 :=
  ⟨by decide, sanitizeName_props.2.2.2.2 (String.mk (List.replicate 200 'a'))
    (by decide) (by decide)⟩

/-- Counterexample to C8 as stated: a 200-character title of stars
sanitizes to the placeholder, whose length is 8, not 100, so not every
200-character title is truncated to exactly 100 characters. -/
theorem sanitizeName_counterexample :
    (String.mk (List.replicate 200 '*')).length = 200 ∧
    sanitizeName (some (String.mk (List.replicate 200 '*'))) = "Untitled" ∧
    (sanitizeName (some (String.mk (List.replicate 200 '*')))).length ≠ 100 := by
  refine ⟨by decide, by decide, by decide⟩

end EpubToMd

namespace EpubToMd

/-- A request for a different source file never touches the cache entry
or the invocation count of the file under consideration. -/
theorem getMarkdown_other (env : RenderEnv) (st : ConvState) (r src : String)
    (h : r ≠ src) :
    lookupCache (getMarkdownContent env st r).2.cache src = lookupCache st.cache src ∧
    (getMarkdownContent env st r).2.calls.count src = st.calls.count src := by
  unfold getMarkdownContent
  cases hc : lookupCache st.cache r with
  | some c => exact ⟨rfl, rfl⟩
  | none =>
    by_cases hok : env.fileOk r = true
    · rw [if_pos hok]
      cases hr : env.render r with
      | some c =>
        constructor
        · simp [lookupCache, h]
        · simp [List.count_append, List.count_singleton', h]
      | none =>
        constructor
        · rfl
        · simp [List.count_append, List.count_singleton', h]
    · rw [if_neg hok]
      exact ⟨rfl, rfl⟩

/-- Once the file is cached with text c, any further request sequence
leaves its cache entry and invocation count unchanged, and every request
for it is answered with c. -/
theorem runRequests_cached (env : RenderEnv) (src c : String) (reqs : List String) :
    ∀ st : ConvState, lookupCache st.cache src = some c →
      lookupCache (runRequests env st reqs).2.cache src = some c ∧
      (runRequests env st reqs).2.calls.count src = st.calls.count src ∧
      ∀ p ∈ reqs.zip (runRequests env st reqs).1, p.1 = src → p.2 = c := by
  induction reqs with
  | nil =>
    intro st h
    exact ⟨h, rfl, by simp [runRequests]⟩
  | cons r rest ih =>
    intro st h
    by_cases hr : r = src
    · subst hr
      have hstep : getMarkdownContent env st r = (c, st) := by
        unfold getMarkdownContent
        rw [h]
      obtain ⟨h1, h2, h3⟩ := ih st h
      simp only [runRequests, hstep]
      refine ⟨h1, h2, ?_⟩
      intro p hp hps
      rcases List.mem_cons.mp hp with rfl | hp2
      · rfl
      · exact h3 p hp2 hps
    · have hpres := getMarkdown_other env st r src hr
      obtain ⟨h1, h2, h3⟩ := ih (getMarkdownContent env st r).2 (by rw [hpres.1]; exact h)
      simp only [runRequests]
      refine ⟨h1, by rw [h2, hpres.2], ?_⟩
      intro p hp hps
      rcases List.mem_cons.mp hp with rfl | hp2
      · exact absurd hps hr
      · exact h3 p hp2 hps

/-- From a state in which the file is uncached and never yet invoked, a
request sequence invokes the renderer exactly once when the file is
requested at all, never more, provided the file exists and its render
succeeds; and every request for the file is answered with the rendered
text. -/
theorem runRequests_fresh (env : RenderEnv) (src c : String)
    (hok : env.fileOk src = true) (hrend : env.render src = some c)
    (reqs : List String) :
    ∀ st : ConvState, lookupCache st.cache src = none → st.calls.count src = 0 →
      (runRequests env st reqs).2.calls.count src = (if src ∈ reqs then 1 else 0) ∧
      ∀ p ∈ reqs.zip (runRequests env st reqs).1, p.1 = src → p.2 = c := by
  induction reqs with
  | nil =>
    intro st h1 h2
    simp [runRequests, h2]
  | cons r rest ih =>
    intro st h1 h2
    by_cases hr : r = src
    · subst hr
      have hstep : getMarkdownContent env st r =
          (c, ⟨(r, c) :: st.cache, st.calls ++ [r]⟩) := by
        unfold getMarkdownContent
        rw [h1, hok, hrend]
        simp
      have hcached : lookupCache ((r, c) :: st.cache) r = some c := by
        simp [lookupCache]
      obtain ⟨h3, h4, h5⟩ :=
        runRequests_cached env r c rest ⟨(r, c) :: st.cache, st.calls ++ [r]⟩ hcached
      simp only [runRequests, hstep]
      constructor
      · rw [h4]
        simp [List.count_append, h2]
      · intro p hp hps
        rcases List.mem_cons.mp hp with rfl | hp2
        · rfl
        · exact h5 p hp2 hps
    · have hpres := getMarkdown_other env st r src hr
      obtain ⟨h3, h4⟩ := ih (getMarkdownContent env st r).2
        (by rw [hpres.1]; exact h1) (by rw [hpres.2]; exact h2)
      simp only [runRequests]
      constructor
      · rw [h3]
        by_cases hm : src ∈ rest
        · rw [if_pos hm, if_pos (List.mem_cons_of_mem r hm)]
        · rw [if_neg hm, if_neg (by
            intro hcon
            rcases List.mem_cons.mp hcon with hs | hs
            · exact hr hs.symm
            · exact hm hs)]
      · intro p hp hps
        rcases List.mem_cons.mp hp with rfl | hp2
        · exact absurd hps hr
        · exact h4 p hp2 hps

/-- C2 (amended). Starting from the empty cache, and provided the source
file exists and the renderer succeeds on it, the renderer subprocess is
invoked exactly once for that file across any request sequence that
mentions it, however many outline nodes reference it, and every request
for it, the first included, is answered with the rendered text (hence
every call after the first returns the cached text). When the render
fails nothing is cached, which the counterexample uses to refute the
unconditional claim. -/
theorem getMarkdown_renders_once (env : RenderEnv) (src c : String)
    (hok : env.fileOk src = true) (hrend : env.render src = some c)
    (reqs : List String) :
    (runRequests env ⟨[], []⟩ reqs).2.calls.count src = (if src ∈ reqs then 1 else 0) ∧
    ∀ p ∈ reqs.zip (runRequests env ⟨[], []⟩ reqs).1, p.1 = src → p.2 = c :=
  runRequests_fresh env src c hok hrend reqs ⟨[], []⟩ rfl rfl

/-- Witness for the amended C2: in a run requesting one file twice amid
another file, the renderer is invoked once for it and both requests get
the same rendered text. -/
theorem getMarkdown_renders_once_witness :
    (runRequests okEnv ⟨[], []⟩ ["a.xhtml", "b.xhtml", "a.xhtml"]).2.calls.count
        "a.xhtml" = 1 ∧
    (runRequests okEnv ⟨[], []⟩ ["a.xhtml", "b.xhtml", "a.xhtml"]).1 =
      ["rendered:a.xhtml", "rendered:b.xhtml", "rendered:a.xhtml"] := by
  have h := (getMarkdown_renders_once okEnv "a.xhtml" "rendered:a.xhtml" rfl rfl
      ["a.xhtml", "b.xhtml", "a.xhtml"]).1
  rw [if_pos (by decide)] at h
  exact ⟨h, by decide⟩

/-- Counterexample to C2 as stated: when the renderer fails on a file
referenced by two outline nodes, nothing is cached and the subprocess is
invoked twice, not exactly once. -/
theorem getMarkdown_retry_counterexample :
    (runRequests failEnv ⟨[], []⟩ ["ch1.xhtml", "ch1.xhtml"]).2.calls.count
        "ch1.xhtml" = 2 ∧
    ¬((runRequests failEnv ⟨[], []⟩ ["ch1.xhtml", "ch1.xhtml"]).2.calls.count
        "ch1.xhtml" = 1) :=
  ⟨by decide, by decide⟩

end EpubToMd

namespace EpubToMd

/-- The spine-fallback fold, from any accumulator, appends one node per
resolvable reading-order entry, numbered from the accumulator length. -/
theorem spineFold_eq (idToHref : List (String × String)) (idrefs : List String)
    (acc : List TocItem) :
    idrefs.foldl
        (fun acc idref =>
          match lookupLastHref idToHref idref with
          | some href => acc ++ [⟨"Section " ++ toString (acc.length + 1), some href, []⟩]
          | none => acc) acc =
      acc ++ (idrefs.filterMap (lookupLastHref idToHref)).mapIdx
        (fun i href => ⟨"Section " ++ toString (acc.length + i + 1), some href, []⟩) := by
  induction idrefs generalizing acc with
  | nil => simp
  | cons a rest ih =>
    cases h : lookupLastHref idToHref a with
    | none =>
      rw [List.foldl_cons]
      simp only [h]
      rw [ih, List.filterMap_cons_none h]
    | some href =>
      rw [List.foldl_cons]
      simp only [h]
      rw [ih, List.filterMap_cons_some h, List.mapIdx_cons]
      rw [List.append_assoc]
      congr 1
      rw [List.singleton_append]
      congr 1
      have hfun : (fun i (h2 : String) => (⟨"Section " ++ toString
            ((acc ++ [(⟨"Section " ++ toString (acc.length + 1), some href, []⟩ : TocItem)]).length + i + 1),
            some h2, []⟩ : TocItem)) =
          (fun i (h2 : String) => (⟨"Section " ++ toString (acc.length + (i + 1) + 1),
            some h2, []⟩ : TocItem)) := by
        funext i h2
        have harith : (acc ++ [(⟨"Section " ++ toString (acc.length + 1), some href, []⟩ : TocItem)]).length + i + 1 =
            acc.length + (i + 1) + 1 := by
          simp only [List.length_append, List.length_cons, List.length_nil]
          omega
        rw [harith]
      rw [hfun]

/-- The spine fallback builds exactly one flat childless node per
resolvable reading-order entry, titled Section followed by its
one-based position among the resolvable entries. -/
theorem spineFallbackItems_eq (idToHref : List (String × String))
    (idrefs : List String) :
    spineFallbackItems idToHref idrefs =
      (idrefs.filterMap (lookupLastHref idToHref)).mapIdx
        (fun i href => ⟨"Section " ++ toString (i + 1), some href, []⟩) := by
  unfold spineFallbackItems
  rw [spineFold_eq]
  simp only [List.nil_append, List.length_nil]
  congr 1
  funext i href
  have : 0 + i + 1 = i + 1 := by omega
  rw [this]

/-- C3 (amended). Outline strategies are dispatched by the toc file's
extension: a navigation-tree (ncx) toc file uses the navigation-tree
parser only, so when it yields zero nodes the HTML navigation-list
strategy is not attempted and the linear spine fallback is used
directly; the fallback synthesizes one flat childless node per
resolvable reading-order entry titled Section followed by its one-based
position. -/
theorem outlineStrategy_fallback (tocFile : String) (navRes : List TocItem)
    (idToHref : List (String × String)) (idrefs : List String)
    (hncx : isNcxFile tocFile = true) :
    (selectOutline tocFile [] navRes (spineFallbackItems idToHref idrefs)).1 =
        spineFallbackItems idToHref idrefs ∧
    (selectOutline tocFile [] navRes (spineFallbackItems idToHref idrefs)).2 =
        [Strategy.ncxS, Strategy.spineS] ∧
    Strategy.navS ∉
        (selectOutline tocFile [] navRes (spineFallbackItems idToHref idrefs)).2 ∧
    spineFallbackItems idToHref idrefs =
      (idrefs.filterMap (lookupLastHref idToHref)).mapIdx
        (fun i href => ⟨"Section " ++ toString (i + 1), some href, []⟩) := by
  have hsel : selectOutline tocFile [] navRes (spineFallbackItems idToHref idrefs) =
      (spineFallbackItems idToHref idrefs, [Strategy.ncxS, Strategy.spineS]) := by
    unfold selectOutline
    rw [if_pos hncx]
    simp
  rw [hsel]
  exact ⟨rfl, rfl,
    (by decide : Strategy.navS ∉ [Strategy.ncxS, Strategy.spineS]),
    spineFallbackItems_eq idToHref idrefs⟩

/-- Witness for the amended C3: an ncx toc file whose navigation-tree
parse yields nothing falls through to the spine fallback, producing
Section 1 and Section 2 for the two resolvable reading-order entries. -/
theorem outlineStrategy_fallback_witness :
    isNcxFile "toc.ncx" = true ∧
    (selectOutline "toc.ncx" [] [⟨"Chapter One", some "c1.xhtml", []⟩]
        (spineFallbackItems [("c1", "text/c1.xhtml"), ("c2", "text/c2.xhtml")]
          ["c1", "cx", "c2"])).1 =
      spineFallbackItems [("c1", "text/c1.xhtml"), ("c2", "text/c2.xhtml")]
        ["c1", "cx", "c2"] ∧
    ((spineFallbackItems [("c1", "text/c1.xhtml"), ("c2", "text/c2.xhtml")]
        ["c1", "cx", "c2"]).map (fun t => t.title)) = ["Section 1", "Section 2"] :=
  ⟨by decide,
   (outlineStrategy_fallback "toc.ncx" [⟨"Chapter One", some "c1.xhtml", []⟩]
     [("c1", "text/c1.xhtml"), ("c2", "text/c2.xhtml")] ["c1", "cx", "c2"]
     (by decide)).1,
   by decide⟩

/-- Counterexample to C3 as stated: the navigation-tree source yields
zero nodes while the HTML navigation list would yield a chapter, yet the
HTML strategy is never attempted — the attempted strategies are the
navigation tree and then the spine fallback, whose generic titles, not
the HTML chapter title, appear in the result. -/
theorem outlineStrategy_counterexample :
    (selectOutline "toc.ncx" [] [⟨"Chapter One", some "c1.xhtml", []⟩]
        (spineFallbackItems [("c1", "text/c1.xhtml"), ("c2", "text/c2.xhtml")]
          ["c1", "cx", "c2"])).2 = [Strategy.ncxS, Strategy.spineS] ∧
    Strategy.navS ∉
      (selectOutline "toc.ncx" [] [⟨"Chapter One", some "c1.xhtml", []⟩]
        (spineFallbackItems [("c1", "text/c1.xhtml"), ("c2", "text/c2.xhtml")]
          ["c1", "cx", "c2"])).2 ∧
    ((selectOutline "toc.ncx" [] [⟨"Chapter One", some "c1.xhtml", []⟩]
        (spineFallbackItems [("c1", "text/c1.xhtml"), ("c2", "text/c2.xhtml")]
          ["c1", "cx", "c2"])).1.map (fun t => t.title)) ≠ ["Chapter One"] :=
  ⟨by decide, by decide, by decide⟩

end EpubToMd

namespace EpubToMd

/-- Rule 1 cannot match at a position whose text holds no open bracket. -/
theorem tryPat1_none (s : List Char) (h : '[' ∉ s) : tryPat1 s = none := by
  cases s with
  | nil => rfl
  | cons a t =>
    cases t with
    | nil => rfl
    | cons b rest =>
      have hb : b ≠ '[' := by
        intro hb
        exact h (hb ▸ List.mem_cons_of_mem a (List.mem_cons_self b rest))
      simp [tryPat1, hb]

/-- Rule 2 cannot match at a position whose text holds no open bracket. -/
theorem tryPat2_none (s : List Char) (h : '[' ∉ s) : tryPat2 s = none := by
  cases s with
  | nil => rfl
  | cons a t =>
    have ha : a ≠ '[' := by
      intro ha
      exact h (ha ▸ List.mem_cons_self a t)
    simp [tryPat2, ha]

/-- Rule 3 cannot match at a position whose text holds no open bracket. -/
theorem tryPat3_none (s : List Char) (h : '[' ∉ s) : tryPat3 s = none := by
  cases s with
  | nil => rfl
  | cons a t =>
    cases t with
    | nil => rfl
    | cons b rest =>
      have hb : b ≠ '[' := by
        intro hb
        exact h (hb ▸ List.mem_cons_of_mem a (List.mem_cons_self b rest))
      simp [tryPat3, hb]

/-- Rule 4 cannot match at a position whose text holds no open bracket. -/
theorem tryPat4_none (prev : Option Char) (s : List Char) (h : '[' ∉ s) :
    tryPat4 prev s = none := by
  cases s with
  | nil => rfl
  | cons a t =>
    have ha : a ≠ '[' := by
      intro ha
      exact h (ha ▸ List.mem_cons_self a t)
    simp [tryPat4, ha]

/-- A matcher that fails everywhere leaves the scanned text unchanged. -/
theorem subAllFuel_no_op (f : List Char → Option (List Char × List Char))
    (hf : ∀ t : List Char, '[' ∉ t → f t = none) :
    ∀ (n : Nat) (s : List Char), '[' ∉ s → subAllFuel f n s = s := by
  intro n
  induction n with
  | zero => intro s _; rfl
  | succ n ih =>
    intro s h
    cases s with
    | nil => rfl
    | cons c cs =>
      have h1 : f (c :: cs) = none := hf (c :: cs) h
      have h2 : '[' ∉ cs := fun hc => h (List.mem_cons_of_mem c hc)
      simp only [subAllFuel, h1, ih cs h2]

/-- The lookbehind-guarded scanner behaves the same way. -/
theorem subAllPrevFuel_no_op
    (f : Option Char → List Char → Option (List Char × List Char))
    (hf : ∀ (p : Option Char) (t : List Char), '[' ∉ t → f p t = none) :
    ∀ (n : Nat) (p : Option Char) (s : List Char), '[' ∉ s →
      subAllPrevFuel f p n s = s := by
  intro n
  induction n with
  | zero => intro p s _; rfl
  | succ n ih =>
    intro p s h
    cases s with
    | nil => rfl
    | cons c cs =>
      have h1 : f p (c :: cs) = none := hf p (c :: cs) h
      have h2 : '[' ∉ cs := fun hc => h (List.mem_cons_of_mem c hc)
      simp only [subAllPrevFuel, h1, ih (some c) cs h2]

/-- Literal replacement of a pattern whose first character is absent
from the text leaves the text unchanged. -/
theorem replaceAllLitFuel_no_op (p0 : Char) (pt rep : List Char) :
    ∀ (n : Nat) (s : List Char), p0 ∉ s →
      replaceAllLitFuel (p0 :: pt) rep n s = s := by
  intro n
  induction n with
  | zero => intro s _; rfl
  | succ n ih =>
    intro s h
    cases s with
    | nil => rfl
    | cons c cs =>
      have hne : ¬(p0 = c) := by
        intro he
        exact h (he ▸ List.mem_cons_self c cs)
      have h2 : p0 ∉ cs := fun hc => h (List.mem_cons_of_mem c hc)
      have hls : listStarts (p0 :: pt) (c :: cs) = false := by
        simp [listStarts, hne]
      simp only [replaceAllLitFuel, hls, Bool.false_and, Bool.false_eq_true,
        if_false, ih cs h2]

/-- replaceAllLit version of the previous lemma. -/
theorem replaceAllLit_no_op (p0 : Char) (pt rep s : List Char) (h : p0 ∉ s) :
    replaceAllLit (p0 :: pt) rep s = s :=
  replaceAllLitFuel_no_op p0 pt rep s.length s h

/-- The unescaping rule leaves a text without backslashes unchanged. -/
theorem unescapeStep_no_op (s : List Char) (h : '\\' ∉ s) :
    unescapeStep s = s := by
  unfold unescapeStep
  rw [replaceAllLit_no_op '\\' _ _ s h, replaceAllLit_no_op '\\' _ _ s h,
    replaceAllLit_no_op '\\' _ _ s h]

/-- A successful trailing-attribute match contains an open brace. -/
theorem matchTailAttr_brace (s : List Char) (h : matchTailAttr s = true) :
    '\x7b' ∈ s := by
  unfold matchTailAttr at h
  cases hdw : s.dropWhile isPySpace with
  | nil => rw [hdw] at h; simp at h
  | cons a t =>
    cases t with
    | nil => rw [hdw] at h; simp at h
    | cons b r2 =>
      rw [hdw] at h
      simp only [Bool.and_eq_true, decide_eq_true_eq] at h
      have ha : a = '\x7b' := by tauto
      have hmem : a ∈ s.dropWhile isPySpace := by
        rw [hdw]
        exact List.mem_cons_self a (b :: r2)
      exact ha ▸ (List.dropWhile_sublist isPySpace).mem hmem

/-- Rule 6 finds no split point on a line without an open brace. -/
theorem attrSplit_none (l : List Char) (h : '\x7b' ∉ l) :
    ∀ k, attrSplit l k = none := by
  intro k
  induction k with
  | zero => rfl
  | succ k ih =>
    have hmt : matchTailAttr (l.drop (k + 1)) = false := by
      cases hcase : matchTailAttr (l.drop (k + 1)) with
      | false => rfl
      | true =>
        exact absurd (List.drop_subset (k + 1) l (matchTailAttr_brace _ hcase)) h
    simp only [attrSplit, hmt, Bool.and_false, Bool.false_eq_true, if_false, ih]

/-- Rule 6 leaves a line without an open brace unchanged. -/
theorem lineStep6_no_op (l : List Char) (h : '\x7b' ∉ l) : lineStep6 l = l := by
  unfold lineStep6
  rw [attrSplit_none l h]

/-- Every character of a split line is a character of the text. -/
theorem splitNl_subset (s : List Char) :
    ∀ l ∈ splitNl s, ∀ c ∈ l, c ∈ s := by
  induction s with
  | nil =>
    intro l hl c hc
    simp [splitNl] at hl
    subst hl
    simp at hc
  | cons a cs ih =>
    intro l hl c hc
    by_cases ha : a = '\n'
    · rw [splitNl, if_pos ha] at hl
      rcases List.mem_cons.mp hl with rfl | hl2
      · simp at hc
      · exact List.mem_cons_of_mem a (ih l hl2 c hc)
    · rw [splitNl, if_neg ha] at hl
      cases hsp : splitNl cs with
      | nil =>
        rw [hsp] at hl
        have : l = [a] := by simpa using hl
        subst this
        have : c = a := by simpa using hc
        subst this
        exact List.mem_cons_self c cs
      | cons l0 ls =>
        rw [hsp] at hl
        rcases List.mem_cons.mp hl with rfl | hl2
        · rcases List.mem_cons.mp hc with rfl | hc2
          · exact List.mem_cons_self c cs
          · exact List.mem_cons_of_mem a
              (ih l0 (hsp ▸ List.mem_cons_self l0 ls) c hc2)
        · exact List.mem_cons_of_mem a
            (ih l (hsp ▸ List.mem_cons_of_mem l0 hl2) c hc)

/-- Every character of joined lines is a newline or a character of one
of the lines. -/
theorem mem_joinNl (ls : List (List Char)) (c : Char) (h : c ∈ joinNlChars ls) :
    c = '\n' ∨ ∃ l ∈ ls, c ∈ l := by
  induction ls with
  | nil => simp [joinNlChars] at h
  | cons l ls ih =>
    cases ls with
    | nil =>
      right
      exact ⟨l, by simp, by simpa [joinNlChars] using h⟩
    | cons l2 ls2 =>
      rw [show joinNlChars (l :: l2 :: ls2) = l ++ '\n' :: joinNlChars (l2 :: ls2)
        from rfl] at h
      rcases List.mem_append.mp h with h1 | h1
      · right
        exact ⟨l, by simp, h1⟩
      · rcases List.mem_cons.mp h1 with rfl | h2
        · left; rfl
        · rcases ih h2 with h3 | ⟨l3, hl3, hc3⟩
          · left; exact h3
          · right; exact ⟨l3, List.mem_cons_of_mem l hl3, hc3⟩

/-- Rule 5 keeps only characters of its input line. -/
theorem fenceLine_subset (l : List Char) (c : Char) (h : c ∈ fenceLine l) :
    c ∈ l := by
  unfold fenceLine at h
  split at h
  · simp at h
  · exact h

/-- C9 (amended). On any text free of open brackets, open braces and
backslashes, the markup normalizer is exactly the container-fence rule:
every line starting with three colons has its text removed but its
newline kept, so an empty line remains in its place; fence lines are not
removed entirely, a blank-line residue remains. -/
theorem cleanup_fence_blank_residue (content : String)
    (h1 : '[' ∉ content.data) (h2 : '\x7b' ∉ content.data)
    (h3 : '\\' ∉ content.data) :
    cleanupPandocArtifacts content =
      String.mk (joinNlChars ((splitNl content.data).map fenceLine)) := by
  have hline : ∀ l ∈ splitNl content.data,
      lineStep6 (fenceLine (subAllPrev tryPat4
        (subAll tryPat3 (subAll tryPat2 (subAll tryPat1 l))))) = fenceLine l := by
    intro l hl
    have hb : '[' ∉ l := fun hc => h1 (splitNl_subset content.data l hl '[' hc)
    have hbr : '\x7b' ∉ l := fun hc => h2 (splitNl_subset content.data l hl _ hc)
    rw [show subAll tryPat1 l = l from subAllFuel_no_op tryPat1 tryPat1_none l.length l hb,
      show subAll tryPat2 l = l from subAllFuel_no_op tryPat2 tryPat2_none l.length l hb,
      show subAll tryPat3 l = l from subAllFuel_no_op tryPat3 tryPat3_none l.length l hb,
      show subAllPrev tryPat4 l = l from
        subAllPrevFuel_no_op tryPat4 tryPat4_none l.length none l hb]
    exact lineStep6_no_op (fenceLine l)
      (fun hc => hbr (fenceLine_subset l _ hc))
  unfold cleanupPandocArtifacts
  rw [List.map_congr_left hline]
  congr 1
  apply unescapeStep_no_op
  intro hc
  rcases mem_joinNl _ _ hc with he | ⟨l, hl, hcl⟩
  · exact absurd he (by decide)
  · rcases List.mem_map.mp hl with ⟨l0, hl0, rfl⟩
    exact h3 (splitNl_subset content.data l0 hl0 _ (fenceLine_subset l0 _ hcl))

/-- Witness for the amended C9: the fence line between two text lines
becomes an empty line, leaving a blank-line residue in the output. -/
theorem cleanup_fence_blank_residue_witness :
    cleanupPandocArtifacts "a\n::: note\nb" = "a\n\nb" :=
  (cleanup_fence_blank_residue "a\n::: note\nb" (by decide) (by decide)
    (by decide)).trans (by decide)

/-- Counterexample to C9 as stated: the normalizer does not remove the
fence line entirely, a leftover blank line remains where it stood. -/
theorem cleanup_fence_counterexample :
    cleanupPandocArtifacts "a\n:::\nb" = "a\n\nb" ∧
    cleanupPandocArtifacts "a\n:::\nb" ≠ "a\nb" :=
  ⟨by decide, by decide⟩

/-- C6. The per-node pipeline output depends on the iteration order of
the referenced-id set: on a section referencing two footnotes defined in
the full document, the two enumerations of the set, both of which are
orders the Python set type may produce across runs because string
hashing is randomized per process, yield different output texts —
running the pipeline twice on the same input need not be byte-identical. -/
theorem pipeline_order_dependent :
    (["n1", "n2"] : List String).Perm (referencedIds (extractSection c6doc "s")) ∧
    (["n2", "n1"] : List String).Perm (referencedIds (extractSection c6doc "s")) ∧
    nodePipeline ["n1", "n2"] c6doc (some "s") "." ≠
      nodePipeline ["n2", "n1"] c6doc (some "s") "." :=
  ⟨by decide, by decide, by decide⟩

end EpubToMd
